import Mathlib

/-!
Verification of the KIF (Kompakt Icon Format) codec from `kif.h`.

The codec is modelled shallowly:

* A raw image buffer is represented by the list of its pixels, each pixel being
  the 32-bit little-endian RGBA value the C code obtains by reading the buffer
  through a `uint32_t` pointer (`r` is the low byte, `a` the high byte).  The
  byte image of a pixel value `v` is `le32 v`.
* Serialized `.kif` data is represented by its list of bytes (each a `Nat`
  below 256 in every run that can arise from the C code).
* Machine-integer narrowing is made explicit: storing an `int` into a
  `uint8_t`/`uint16_t`/`uint32_t` field is `% 256`, `% 65536`, `% 4294967296`,
  and storing the `int` result `-1` of `_in_palette` into the `unsigned char`
  `pID` field is `(· % 256).toNat` on `Int`, which yields 255.
* The C encoder's inner run loop compares `Color.v == px_data[i]` without a
  bounds check, so at the end of the buffer it reads one element past the end;
  the model treats that read as a mismatch (the run stops at the end of the
  list), which is the in-bounds meaning of the loop.  Likewise the decoder
  performs no bounds checks at all; out-of-range byte reads are modelled by
  `List.getD` with default 0 and out-of-range palette reads by `List.getD`
  with a zero colour.
* `NULL` pointer arguments of `kif_decode` are modelled by an `Option` buffer
  and a `Bool` flag for the header out-pointer; the encoder claims below all
  quantify over non-null buffers, so `kif_encode` is modelled on the non-null
  case directly.
-/

/-- One palette record as the decoder reads it: the four components of a
`kif_rgba_t` union (`r` low byte first, matching the little-endian layout). -/
structure Rgba where
  r : Nat
  g : Nat
  b : Nat
  a : Nat
deriving DecidableEq

/-- The 16-byte `KIFHeader` struct.  All fields are natural numbers; the C
widths (`uint32_t`, `uint8_t`, `uint16_t`) are enforced at the points where
the C code narrows (serialization and field assignment). -/
structure KIFHeader where
  Magic : Nat
  BPP : Nat
  Compressed : Nat
  palEntries : Nat
  Width : Nat
  Height : Nat
  RLEEntries : Nat
deriving DecidableEq

/-- `_read16bit`: little-endian 16-bit read, `(buffer[1] << 8) | buffer[0]`. -/
def read16 (d : List Nat) (off : Nat) : Nat :=
  d.getD (off + 1) 0 * 256 + d.getD off 0

/-- `_read32bit`: little-endian 32-bit read. -/
def read32 (d : List Nat) (off : Nat) : Nat :=
  d.getD (off + 3) 0 * 16777216 + d.getD (off + 2) 0 * 65536 +
    d.getD (off + 1) 0 * 256 + d.getD off 0

/-- The header-filling block of `kif_decode` (offsets 0..15 of the input). -/
def parseHeader (d : List Nat) : KIFHeader :=
  ⟨read32 d 0, d.getD 4 0, d.getD 5 0, read16 d 6, read16 d 8, read16 d 10, read32 d 12⟩

/-- The decoder's palette read for entry `i`: four bytes at
`sizeof(KIFHeader) + i*4`. -/
def paletteAt (d : List Nat) (i : Nat) : Rgba :=
  ⟨d.getD (16 + i * 4) 0, d.getD (16 + i * 4 + 1) 0,
    d.getD (16 + i * 4 + 2) 0, d.getD (16 + i * 4 + 3) 0⟩

/-- The decoder's palette-reading loop (`Header->palEntries` records). -/
def readPalette (d : List Nat) (n : Nat) : List Rgba :=
  (List.range n).map (paletteAt d)

/-- The decoder's RLE expansion loop: for each of the `RLEEntries` two-byte
pairs after the palette, emit `RunLength` copies of `Palette[index]` as
`r, g, b` bytes, plus the `a` byte when 32-bit output was requested.  The C
code performs no bounds check on `index`; reading past the palette is
modelled by the `getD` default. -/
def rleExpand (d : List Nat) (h : KIFHeader) (pal : List Rgba) (OutputBPP : Int) : List Nat :=
  (List.range h.RLEEntries).flatMap (fun i =>
    (List.range (d.getD (16 + h.palEntries * 4 + i * 2 + 1) 0)).flatMap (fun _ =>
      [(pal.getD (d.getD (16 + h.palEntries * 4 + i * 2) 0) ⟨0, 0, 0, 0⟩).r,
       (pal.getD (d.getD (16 + h.palEntries * 4 + i * 2) 0) ⟨0, 0, 0, 0⟩).g,
       (pal.getD (d.getD (16 + h.palEntries * 4 + i * 2) 0) ⟨0, 0, 0, 0⟩).b] ++
      (if OutputBPP = 32 then
        [(pal.getD (d.getD (16 + h.palEntries * 4 + i * 2) 0) ⟨0, 0, 0, 0⟩).a]
      else [])))

/-- `kif_decode`.  `Data = none` models a `NULL` data pointer and
`HeaderIsNull = true` a `NULL` header out-pointer; the C function returns
`NULL` exactly when one of those holds or `OutputBPP` is neither 24 nor 32.
On success it returns the filled header and the written pixel bytes. -/
def kif_decode (Data : Option (List Nat)) (HeaderIsNull : Bool) (OutputBPP : Int) :
    Option (KIFHeader × List Nat) :=
  match Data, HeaderIsNull with
  | none, _ => none
  | some _, true => none
  | some d, false =>
    if OutputBPP ≠ 24 ∧ OutputBPP ≠ 32 then none
    else
      some (parseHeader d, rleExpand d (parseHeader d) (readPalette d (parseHeader d).palEntries) OutputBPP)

/-- The total run length declared by the RLE stream of a serialized buffer:
the sum of the run bytes that `kif_decode` reads. -/
def declaredRunSum (d : List Nat) : Nat :=
  ((List.range (parseHeader d).RLEEntries).map (fun i =>
    d.getD (16 + (parseHeader d).palEntries * 4 + i * 2 + 1) 0)).sum

/-- All header fields except `Magic`, used to state that decoding ignores the
magic bytes. -/
def headerSansMagic (h : KIFHeader) : Nat × Nat × Nat × Nat × Nat × Nat :=
  (h.BPP, h.Compressed, h.palEntries, h.Width, h.Height, h.RLEEntries)

/-- One step of `_generate_palette`'s scan: linear-search the palette for the
pixel's colour; if absent and the 65536-entry capacity is not reached,
append it. -/
def paletteStep (pal : List Nat) (c : Nat) : List Nat :=
  if c ∈ pal then pal
  else if pal.length < 65536 then pal ++ [c] else pal

/-- `_generate_palette`: entry 0 is forced to transparent black (value 0),
then the `Width*Height` pixels are scanned in order. -/
def generate_palette (px : List Nat) : List Nat :=
  px.foldl paletteStep [0]

/-- `_in_palette`: index of the first palette entry equal to `Color`, or `-1`
when the colour is not present. -/
def in_palette (Color : Nat) : List Nat → Int
  | [] => -1
  | p :: rest =>
    if p = Color then 0
    else if in_palette Color rest = -1 then -1 else in_palette Color rest + 1

/-- The byte stored into the `unsigned char` field `px_rle.pID`: the `int`
returned by `_in_palette`, reduced modulo 256 (so a failed lookup's `-1`
becomes 255). -/
def pidByte (Color : Nat) (pal : List Nat) : Nat :=
  (in_palette Color pal % 256).toNat

/-- The encoder's inner run loop after the first (always matching) iteration:
count how many further leading pixels equal `Color`, up to `cap` of them,
and return the count together with the unread remainder.  Reaching the end
of the list stops the run, which is the in-bounds meaning of the unchecked
`Color.v == px_data[i]` comparison. -/
def takeRun (Color : Nat) : Nat → List Nat → Nat × List Nat
  | _, [] => (0, [])
  | 0, l => (0, l)
  | cap + 1, x :: xs =>
    if x = Color then
      ((takeRun Color cap xs).1 + 1, (takeRun Color cap xs).2)
    else (0, x :: xs)

/-- The encoder's outer RLE loop, with an explicit fuel argument (any fuel of
at least the list length gives the loop's behaviour): each iteration looks
up the current pixel's palette index, consumes a run of 1 + (up to 254)
equal pixels, and emits one `(pID, runLength)` entry. -/
def rleEncodeF (pal : List Nat) : Nat → List Nat → List (Nat × Nat)
  | _, [] => []
  | 0, _ :: _ => []
  | fuel + 1, x :: xs =>
    (pidByte x pal, (takeRun x 254 xs).1 + 1) :: rleEncodeF pal fuel (takeRun x 254 xs).2

/-- The encoder's RLE loop over a whole pixel list. -/
def rleEncode (pal : List Nat) (l : List Nat) : List (Nat × Nat) :=
  rleEncodeF pal l.length l

/-- Little-endian bytes of a `uint16_t` field. -/
def le16 (n : Nat) : List Nat := [n % 256, n / 256 % 256]

/-- Little-endian bytes of a `uint32_t` value; also the byte image of a
`kif_rgba_t` union (`r` is the low byte). -/
def le32 (n : Nat) : List Nat :=
  [n % 256, n / 256 % 256, n / 65536 % 256, n / 16777216 % 256]

/-- The first three bytes of a pixel value: its `r`, `g`, `b` components
(the pixel with the alpha byte removed). -/
def le24 (n : Nat) : List Nat :=
  [n % 256, n / 256 % 256, n / 65536 % 256]

/-- The byte image of the packed 16-byte `KIFHeader` struct (little-endian,
no padding), as `memcpy` copies it into the output buffer. -/
def headerBytes (h : KIFHeader) : List Nat :=
  le32 h.Magic ++ [h.BPP % 256, h.Compressed % 256] ++ le16 h.palEntries ++
    le16 h.Width ++ le16 h.Height ++ le32 h.RLEEntries

/-- Result of a successful `kif_encode` call: the header as the encoder left
it, the `(pID, runLength)` entries of the `Encoded` array, the bytes of the
output buffer and the reported `*OutputLength`. -/
structure EncodeResult where
  header : KIFHeader
  entries : List (Nat × Nat)
  output : List Nat
  outputLength : Nat
deriving DecidableEq

/-- `kif_encode` on a non-null buffer and header.  The encoder processes the
`Width*Height` leading pixels of the buffer, builds the palette, stores the
colour count into the `uint16_t` field `palEntries`, run-length encodes the
pixels, fixes `Magic`/`BPP`/`Compressed`/`RLEEntries`, and concatenates
header, palette and RLE bytes, reporting `16 + 4*NumberOfColors +
2*num_rle_entries` as the output length. -/
def kif_encode (Data : List Nat) (Header : KIFHeader) : EncodeResult :=
  let px := Data.take (Header.Width * Header.Height)
  let pal := generate_palette px
  let entries := rleEncode pal px
  let h2 : KIFHeader :=
    ⟨0x6B696631, 4, 0, pal.length % 65536, Header.Width, Header.Height,
      entries.length % 4294967296⟩
  { header := h2
    entries := entries
    output := headerBytes h2 ++ (pal.flatMap le32 ++ entries.flatMap (fun e => [e.1, e.2]))
    outputLength := 16 + 4 * pal.length + 2 * entries.length }

example : generate_palette [5, 5, 7] = [0, 5, 7] := by decide
example : (kif_encode [5, 5, 7] ⟨0, 0, 0, 0, 3, 1, 0⟩).entries = [(1, 2), (2, 1)] := by decide
example :
    (kif_decode (some (kif_encode [5, 5, 7] ⟨0, 0, 0, 0, 3, 1, 0⟩).output) false 32).map
      (fun r => r.2) = some [5, 0, 0, 0, 5, 0, 0, 0, 7, 0, 0, 0] := by decide

/-! ### List utilities -/

theorem getD_append_lt {α} (l l' : List α) (n : Nat) (d : α) (h : n < l.length) :
    (l ++ l').getD n d = l.getD n d := by
  induction l generalizing n with
  | nil => simp at h
  | cons a t ih =>
    cases n with
    | zero => rfl
    | succ m =>
      simp only [List.cons_append, List.getD_cons_succ]
      exact ih m (by simpa using h)

theorem getD_append_ge {α} (l l' : List α) (n : Nat) (d : α) :
    (l ++ l').getD (l.length + n) d = l'.getD n d := by
  induction l with
  | nil => simp
  | cons a t ih =>
    have h : t.length + 1 + n = (t.length + n) + 1 := by omega
    simp only [List.cons_append, List.length_cons, h, List.getD_cons_succ]
    exact ih

theorem length_flatMap_le32 (pal : List Nat) : (pal.flatMap le32).length = 4 * pal.length := by
  induction pal with
  | nil => rfl
  | cons p t ih =>
    simp only [List.flatMap_cons, List.length_append, ih]
    simp [le32]
    omega

theorem length_flatMap_pair (es : List (Nat × Nat)) :
    (es.flatMap (fun e => [e.1, e.2])).length = 2 * es.length := by
  induction es with
  | nil => rfl
  | cons e t ih =>
    simp only [List.flatMap_cons, List.length_append, ih]
    simp
    omega

theorem palBytes_getD (pal : List Nat) (i k : Nat) (hi : i < pal.length) (hk : k < 4) :
    (pal.flatMap le32).getD (i * 4 + k) 0 = (le32 (pal.getD i 0)).getD k 0 := by
  induction pal generalizing i with
  | nil => simp at hi
  | cons p t ih =>
    cases i with
    | zero =>
      simp only [List.flatMap_cons, List.getD_cons_zero]
      have h4 : (le32 p).length = 4 := rfl
      rw [show (0 * 4 + k) = k by omega, getD_append_lt _ _ _ _ (by omega)]
    | succ m =>
      simp only [List.flatMap_cons, List.getD_cons_succ]
      have h4 : (le32 p).length = 4 := rfl
      have hoff : (m + 1) * 4 + k = (le32 p).length + (m * 4 + k) := by omega
      rw [hoff, getD_append_ge]
      exact ih m (by simpa using hi)

theorem pairBytes_getD (es : List (Nat × Nat)) (i k : Nat) (hi : i < es.length) (hk : k < 2) :
    (es.flatMap (fun e => [e.1, e.2])).getD (i * 2 + k) 0 =
      [(es.getD i (0, 0)).1, (es.getD i (0, 0)).2].getD k 0 := by
  induction es generalizing i with
  | nil => simp at hi
  | cons e t ih =>
    cases i with
    | zero =>
      simp only [List.flatMap_cons, List.getD_cons_zero]
      rw [show (0 * 2 + k) = k by omega, getD_append_lt _ _ _ _ (by simp; omega)]
    | succ m =>
      simp only [List.flatMap_cons, List.getD_cons_succ]
      have hoff : (m + 1) * 2 + k = ([e.1, e.2] : List Nat).length + (m * 2 + k) := by simp; omega
      rw [hoff, getD_append_ge]
      exact ih m (by simpa using hi)

theorem flatMap_range_eq {α β} (l : List α) (d : α) (g : Nat → List β) (hfn : α → List β)
    (H : ∀ i, i < l.length → g i = hfn (l.getD i d)) :
    (List.range l.length).flatMap g = l.flatMap hfn := by
  induction l generalizing g with
  | nil => rfl
  | cons x xs ih =>
    simp only [List.length_cons, List.range_succ_eq_map, List.flatMap_cons]
    rw [List.flatMap_map]
    have h0 : g 0 = hfn x := H 0 (by simp)
    rw [h0]
    congr 1
    exact ih (fun i => g (i + 1)) (fun i hi => H (i + 1) (by simpa using hi))

theorem map_range_eq {α β} (l : List α) (d : α) (g : Nat → β) (hfn : α → β)
    (H : ∀ i, i < l.length → g i = hfn (l.getD i d)) :
    (List.range l.length).map g = l.map hfn := by
  induction l generalizing g with
  | nil => rfl
  | cons x xs ih =>
    simp only [List.length_cons, List.range_succ_eq_map, List.map_cons, List.map_map]
    have h0 : g 0 = hfn x := H 0 (by simp)
    rw [h0]
    congr 1
    exact ih (fun i => g (i + 1)) (fun i hi => H (i + 1) (by simpa using hi))

theorem flatMap_replicate {α β} (k : Nat) (c : α) (f : α → List β) :
    (List.replicate k c).flatMap f = (List.range k).flatMap (fun _ => f c) := by
  induction k with
  | zero => rfl
  | succ m ih =>
    rw [List.replicate_succ', List.flatMap_append, ih, List.range_succ, List.flatMap_append]
    simp

/-! ### Palette construction lemmas -/

theorem paletteStep_length_le (pal : List Nat) (c : Nat) :
    pal.length ≤ (paletteStep pal c).length := by
  unfold paletteStep
  split
  · exact Nat.le_refl _
  · split
    · simp
    · exact Nat.le_refl _

theorem foldl_paletteStep_length_mono (l : List Nat) (pal : List Nat) :
    pal.length ≤ (l.foldl paletteStep pal).length := by
  induction l generalizing pal with
  | nil => exact Nat.le_refl _
  | cons c t ih =>
    exact Nat.le_trans (paletteStep_length_le pal c) (ih (paletteStep pal c))

theorem mem_paletteStep (pal : List Nat) (c a : Nat) (h : a ∈ pal) : a ∈ paletteStep pal c := by
  unfold paletteStep
  split
  · exact h
  · split
    · exact List.mem_append_left _ h
    · exact h

theorem mem_foldl_paletteStep (l : List Nat) (pal : List Nat) (a : Nat) (h : a ∈ pal) :
    a ∈ l.foldl paletteStep pal := by
  induction l generalizing pal with
  | nil => exact h
  | cons c t ih => exact ih (paletteStep pal c) (mem_paletteStep pal c a h)

theorem mem_paletteStep_self (pal : List Nat) (c : Nat) (h : pal.length < 65536) :
    c ∈ paletteStep pal c := by
  unfold paletteStep
  by_cases hmem : c ∈ pal
  · rw [if_pos hmem]
    exact hmem
  · rw [if_neg hmem, if_pos h]
    exact List.mem_append_right _ (List.mem_singleton.mpr rfl)

theorem foldl_paletteStep_complete (l : List Nat) (pal : List Nat)
    (h : (l.foldl paletteStep pal).length < 65536) :
    ∀ c ∈ l, c ∈ l.foldl paletteStep pal := by
  induction l generalizing pal with
  | nil => intro c hc; simp at hc
  | cons x t ih =>
    intro c hc
    rcases List.mem_cons.mp hc with hcx | hct
    · subst hcx
      have hlen : pal.length < 65536 :=
        Nat.lt_of_le_of_lt
          (Nat.le_trans (paletteStep_length_le pal c)
            (foldl_paletteStep_length_mono t (paletteStep pal c))) h
      exact mem_foldl_paletteStep t _ c (mem_paletteStep_self pal c hlen)
    · exact ih (paletteStep pal x) h c hct

theorem paletteStep_nodup (pal : List Nat) (c : Nat) (h : pal.Nodup) :
    (paletteStep pal c).Nodup := by
  unfold paletteStep
  split
  · exact h
  · split
    · next hmem _ =>
      simpa [List.nodup_append, h] using hmem
    · exact h

theorem foldl_paletteStep_nodup (l : List Nat) (pal : List Nat) (h : pal.Nodup) :
    (l.foldl paletteStep pal).Nodup := by
  induction l generalizing pal with
  | nil => exact h
  | cons c t ih => exact ih (paletteStep pal c) (paletteStep_nodup pal c h)

theorem paletteStep_getD_zero (pal : List Nat) (c : Nat) (h : pal ≠ []) :
    paletteStep pal c ≠ [] ∧ (paletteStep pal c).getD 0 1 = pal.getD 0 1 := by
  unfold paletteStep
  split
  · exact ⟨h, rfl⟩
  · split
    · refine ⟨by simp, ?_⟩
      cases pal with
      | nil => exact absurd rfl h
      | cons p t => rfl
    · exact ⟨h, rfl⟩

theorem foldl_paletteStep_getD_zero (l : List Nat) (pal : List Nat) (h : pal ≠ []) :
    l.foldl paletteStep pal ≠ [] ∧ (l.foldl paletteStep pal).getD 0 1 = pal.getD 0 1 := by
  induction l generalizing pal with
  | nil => exact ⟨h, rfl⟩
  | cons c t ih =>
    obtain ⟨h1, h2⟩ := paletteStep_getD_zero pal c h
    obtain ⟨h3, h4⟩ := ih (paletteStep pal c) h1
    exact ⟨h3, h4.trans h2⟩

theorem foldl_paletteStep_subset (l : List Nat) (pal : List Nat) :
    l.foldl paletteStep pal ⊆ pal ++ l := by
  induction l generalizing pal with
  | nil => simp
  | cons c t ih =>
    intro a ha
    have := ih (paletteStep pal c) ha
    rcases List.mem_append.mp this with hL | hR
    · unfold paletteStep at hL
      split at hL
      · exact List.mem_append_left _ hL
      · split at hL
        · rcases List.mem_append.mp hL with h1 | h1
          · exact List.mem_append_left _ h1
          · exact List.mem_append_right _
              (by rw [List.mem_singleton.mp h1]; exact List.mem_cons_self c t)
        · exact List.mem_append_left _ hL
    · exact List.mem_append_right _ (List.mem_cons_of_mem c hR)

theorem foldl_paletteStep_fresh (l : List Nat) (pal : List Nat) (hnd : l.Nodup)
    (hfresh : ∀ c ∈ l, c ∉ pal) (hcap : pal.length + l.length ≤ 65536) :
    l.foldl paletteStep pal = pal ++ l := by
  induction l generalizing pal with
  | nil => simp
  | cons c t ih =>
    have hc : c ∉ pal := hfresh c (List.mem_cons_self c t)
    have hlen : pal.length < 65536 := by
      have := hcap
      simp only [List.length_cons] at this
      omega
    have hstep : paletteStep pal c = pal ++ [c] := by
      unfold paletteStep
      rw [if_neg hc, if_pos hlen]
    rw [List.foldl_cons, hstep]
    have hnd' : t.Nodup := (List.nodup_cons.mp hnd).2
    have hcnotint : c ∉ t := (List.nodup_cons.mp hnd).1
    have hfresh' : ∀ x ∈ t, x ∉ pal ++ [c] := by
      intro x hx
      intro hmem
      rcases List.mem_append.mp hmem with h1 | h1
      · exact hfresh x (List.mem_cons_of_mem c hx) h1
      · exact hcnotint (by simpa using List.mem_singleton.mp h1 ▸ hx)
    have hcap' : (pal ++ [c]).length + t.length ≤ 65536 := by
      simp only [List.length_append, List.length_cons, List.length_nil] at hcap ⊢
      omega
    rw [ih (pal ++ [c]) hnd' hfresh' hcap']
    simp

theorem generate_palette_nodup (px : List Nat) : (generate_palette px).Nodup :=
  foldl_paletteStep_nodup px [0] (by simp)

theorem generate_palette_ne_nil (px : List Nat) : generate_palette px ≠ [] :=
  (foldl_paletteStep_getD_zero px [0] (by simp)).1

theorem generate_palette_getD_zero (px : List Nat) : (generate_palette px).getD 0 1 = 0 :=
  (foldl_paletteStep_getD_zero px [0] (by simp)).2

theorem generate_palette_complete (px : List Nat)
    (h : (generate_palette px).length < 65536) : ∀ c ∈ px, c ∈ generate_palette px :=
  foldl_paletteStep_complete px [0] h

theorem generate_palette_length_le (px : List Nat) :
    (generate_palette px).length ≤ px.dedup.length + 1 := by
  have hnd : (generate_palette px).Nodup := generate_palette_nodup px
  have hsub : generate_palette px ⊆ 0 :: px := foldl_paletteStep_subset px [0]
  have hfin : (generate_palette px).toFinset ⊆ (0 :: px).toFinset := by
    intro a ha
    rw [List.mem_toFinset] at ha ⊢
    exact hsub ha
  have h1 : (generate_palette px).toFinset.card = (generate_palette px).length :=
    List.toFinset_card_of_nodup hnd
  have h2 : ((0 :: px).toFinset).card ≤ px.toFinset.card + 1 := by
    rw [List.toFinset_cons]
    exact Finset.card_insert_le _ _
  have h3 : px.toFinset.card = px.dedup.length := List.card_toFinset px
  have := Finset.card_le_card hfin
  omega

/-! ### Palette lookup lemmas -/

theorem in_palette_of_not_mem (c : Nat) (pal : List Nat) (h : c ∉ pal) :
    in_palette c pal = -1 := by
  induction pal with
  | nil => rfl
  | cons p t ih =>
    have hpc : p ≠ c := fun hpc => h (by rw [hpc]; exact List.mem_cons_self c t)
    have hct : c ∉ t := fun hct => h (List.mem_cons_of_mem p hct)
    simp only [in_palette, if_neg hpc, ih hct]
    simp

theorem in_palette_of_mem (c : Nat) (pal : List Nat) (h : c ∈ pal) :
    0 ≤ in_palette c pal ∧ (in_palette c pal).toNat < pal.length ∧
      pal.getD (in_palette c pal).toNat 0 = c := by
  induction pal with
  | nil => simp at h
  | cons p t ih =>
    by_cases hpc : p = c
    · refine ⟨?_, ?_, ?_⟩ <;> simp [in_palette, if_pos hpc, hpc]
    · have hct : c ∈ t := by
        rcases List.mem_cons.mp h with h1 | h1
        · exact absurd h1.symm hpc
        · exact h1
      obtain ⟨h0, hlt, hget⟩ := ih hct
      have hne : in_palette c t ≠ -1 := by
        intro he
        rw [he] at h0
        omega
      have hrw : in_palette c (p :: t) = in_palette c t + 1 := by
        simp only [in_palette, if_neg hpc, if_neg hne]
      refine ⟨by omega, ?_, ?_⟩
      · rw [hrw, Int.toNat_add h0 (by omega)]
        simpa using Nat.succ_lt_succ hlt
      · rw [hrw, Int.toNat_add h0 (by omega)]
        simpa using hget

theorem pidByte_of_not_mem (c : Nat) (pal : List Nat) (h : c ∉ pal) :
    pidByte c pal = 255 := by
  unfold pidByte
  rw [in_palette_of_not_mem c pal h]
  decide

theorem pidByte_of_mem (c : Nat) (pal : List Nat) (h : c ∈ pal) (hlen : pal.length ≤ 256) :
    pidByte c pal < pal.length ∧ pal.getD (pidByte c pal) 0 = c := by
  obtain ⟨h0, hlt, hget⟩ := in_palette_of_mem c pal h
  have hsmall : in_palette c pal < 256 := by omega
  have hmod : in_palette c pal % 256 = in_palette c pal :=
    Int.emod_eq_of_lt h0 hsmall
  unfold pidByte
  rw [hmod]
  exact ⟨hlt, hget⟩

/-! ### Run extraction lemmas -/

theorem takeRun_fst_le (c : Nat) (cap : Nat) (l : List Nat) : (takeRun c cap l).1 ≤ cap := by
  induction cap generalizing l with
  | zero => cases l <;> simp [takeRun]
  | succ f ih =>
    cases l with
    | nil => simp [takeRun]
    | cons x xs =>
      by_cases hx : x = c
      · simp only [takeRun, if_pos hx]
        exact Nat.succ_le_succ (ih xs)
      · simp only [takeRun, if_neg hx]
        omega

theorem takeRun_decomp (c : Nat) (cap : Nat) (l : List Nat) :
    l = List.replicate (takeRun c cap l).1 c ++ (takeRun c cap l).2 := by
  induction cap generalizing l with
  | zero => cases l <;> simp [takeRun]
  | succ f ih =>
    cases l with
    | nil => simp [takeRun]
    | cons x xs =>
      by_cases hx : x = c
      · simp only [takeRun, if_pos hx, List.replicate_succ, List.cons_append]
        rw [hx]
        exact congrArg (c :: ·) (ih xs)
      · simp [takeRun, if_neg hx]

theorem takeRun_len (c : Nat) (cap : Nat) (l : List Nat) :
    (takeRun c cap l).1 + (takeRun c cap l).2.length = l.length := by
  conv_rhs => rw [takeRun_decomp c cap l]
  simp [List.length_append]

theorem takeRun_snd_length (c : Nat) (cap : Nat) (l : List Nat) :
    (takeRun c cap l).2.length ≤ l.length := by
  have := takeRun_len c cap l
  omega

theorem takeRun_snd_mem (c : Nat) (cap : Nat) (l : List Nat) (a : Nat)
    (h : a ∈ (takeRun c cap l).2) : a ∈ l := by
  induction cap generalizing l with
  | zero =>
    cases l with
    | nil => simpa [takeRun] using h
    | cons x xs => simpa [takeRun] using h
  | succ f ih =>
    cases l with
    | nil => simpa [takeRun] using h
    | cons x xs =>
      by_cases hx : x = c
      · simp only [takeRun, if_pos hx] at h
        exact List.mem_cons_of_mem x (ih xs h)
      · simpa only [takeRun, if_neg hx] using h

/-! ### RLE encoding lemmas -/

theorem rleEncodeF_sum (pal : List Nat) (fuel : Nat) :
    ∀ l : List Nat, l.length ≤ fuel →
      ((rleEncodeF pal fuel l).map (fun e => e.2)).sum = l.length := by
  induction fuel with
  | zero =>
    intro l hl
    cases l with
    | nil => rfl
    | cons x xs => simp at hl
  | succ f ih =>
    intro l hl
    cases l with
    | nil => rfl
    | cons x xs =>
      simp only [rleEncodeF, List.map_cons, List.sum_cons]
      have hrest : (takeRun x 254 xs).2.length ≤ f := by
        have h1 := takeRun_snd_length x 254 xs
        simp only [List.length_cons] at hl
        omega
      rw [ih _ hrest]
      have := takeRun_len x 254 xs
      simp only [List.length_cons]
      omega

theorem rleEncodeF_run_bounds (pal : List Nat) (fuel : Nat) :
    ∀ l : List Nat, l.length ≤ fuel →
      ∀ e ∈ rleEncodeF pal fuel l, 1 ≤ e.2 ∧ e.2 ≤ 255 := by
  induction fuel with
  | zero =>
    intro l hl e he
    cases l with
    | nil => simp [rleEncodeF] at he
    | cons x xs => simp at hl
  | succ f ih =>
    intro l hl e he
    cases l with
    | nil => simp [rleEncodeF] at he
    | cons x xs =>
      simp only [rleEncodeF, List.mem_cons] at he
      rcases he with he | he
      · have := takeRun_fst_le x 254 xs
        rw [he]
        simp
        omega
      · have hrest : (takeRun x 254 xs).2.length ≤ f := by
          have h1 := takeRun_snd_length x 254 xs
          simp only [List.length_cons] at hl
          omega
        exact ih _ hrest e he

theorem rleEncodeF_length_le (pal : List Nat) (fuel : Nat) :
    ∀ l : List Nat, l.length ≤ fuel → (rleEncodeF pal fuel l).length ≤ l.length := by
  induction fuel with
  | zero =>
    intro l hl
    cases l with
    | nil => simp [rleEncodeF]
    | cons x xs => simp at hl
  | succ f ih =>
    intro l hl
    cases l with
    | nil => simp [rleEncodeF]
    | cons x xs =>
      simp only [rleEncodeF, List.length_cons]
      have h1 := takeRun_snd_length x 254 xs
      have hrest : (takeRun x 254 xs).2.length ≤ f := by
        simp only [List.length_cons] at hl
        omega
      have := ih _ hrest
      omega

theorem rleEncodeF_ne_nil (pal : List Nat) (fuel : Nat) (x : Nat) (xs : List Nat)
    (hl : (x :: xs).length ≤ fuel) : rleEncodeF pal fuel (x :: xs) ≠ [] := by
  cases fuel with
  | zero => simp at hl
  | succ f => simp [rleEncodeF]

theorem rleEncodeF_mem_color (pal : List Nat) (fuel : Nat) :
    ∀ l : List Nat, l.length ≤ fuel →
      ∀ e ∈ rleEncodeF pal fuel l, ∃ c ∈ l, e.1 = pidByte c pal := by
  induction fuel with
  | zero =>
    intro l hl e he
    cases l with
    | nil => simp [rleEncodeF] at he
    | cons x xs => simp at hl
  | succ f ih =>
    intro l hl e he
    cases l with
    | nil => simp [rleEncodeF] at he
    | cons x xs =>
      simp only [rleEncodeF, List.mem_cons] at he
      rcases he with he | he
      · exact ⟨x, List.mem_cons_self x xs, by rw [he]⟩
      · have hrest : (takeRun x 254 xs).2.length ≤ f := by
          have h1 := takeRun_snd_length x 254 xs
          simp only [List.length_cons] at hl
          omega
        obtain ⟨c, hc, hec⟩ := ih _ hrest e he
        exact ⟨c, List.mem_cons_of_mem x (takeRun_snd_mem x 254 xs c hc), hec⟩

theorem rleEncodeF_expand (pal : List Nat) (hlen : pal.length ≤ 256) (fuel : Nat) :
    ∀ l : List Nat, l.length ≤ fuel → (∀ c ∈ l, c ∈ pal) →
      (rleEncodeF pal fuel l).flatMap (fun e => List.replicate e.2 (pal.getD e.1 0)) = l := by
  induction fuel with
  | zero =>
    intro l hl hmem
    cases l with
    | nil => rfl
    | cons x xs => simp at hl
  | succ f ih =>
    intro l hl hmem
    cases l with
    | nil => rfl
    | cons x xs =>
      simp only [rleEncodeF, List.flatMap_cons]
      have hx : x ∈ pal := hmem x (List.mem_cons_self x xs)
      have hget : pal.getD (pidByte x pal) 0 = x := (pidByte_of_mem x pal hx hlen).2
      have hrest : (takeRun x 254 xs).2.length ≤ f := by
        have h1 := takeRun_snd_length x 254 xs
        simp only [List.length_cons] at hl
        omega
      have hmem' : ∀ c ∈ (takeRun x 254 xs).2, c ∈ pal := fun c hc =>
        hmem c (List.mem_cons_of_mem x (takeRun_snd_mem x 254 xs c hc))
      rw [ih _ hrest hmem', hget]
      rw [List.replicate_succ, List.cons_append, ← takeRun_decomp x 254 xs]

theorem rleEncodeF_chain (pal : List Nat) (fuel : Nat) :
    ∀ l : List Nat, l.length ≤ fuel → List.Chain' (fun a b => a ≠ b) l →
      rleEncodeF pal fuel l = l.map (fun c => (pidByte c pal, 1)) := by
  induction fuel with
  | zero =>
    intro l hl hch
    cases l with
    | nil => rfl
    | cons x xs => simp at hl
  | succ f ih =>
    intro l hl hch
    cases l with
    | nil => rfl
    | cons x xs =>
      have hrun : takeRun x 254 xs = (0, xs) := by
        cases xs with
        | nil => rfl
        | cons y ys =>
          have hxy : x ≠ y := (List.chain'_cons.mp hch).1
          simp only [takeRun, if_neg (fun h : y = x => hxy h.symm)]
      simp only [rleEncodeF, hrun, List.map_cons]
      have hch' : List.Chain' (fun a b => a ≠ b) xs := List.Chain'.tail hch
      have hxs : xs.length ≤ f := by
        simp only [List.length_cons] at hl
        omega
      rw [ih xs hxs hch']

/-! ### Serialization lemmas -/

theorem headerBytes_length (h : KIFHeader) : (headerBytes h).length = 16 := rfl

theorem parseHeader_headerBytes (h : KIFHeader) (rest : List Nat) :
    parseHeader (headerBytes h ++ rest) =
      ⟨h.Magic % 4294967296, h.BPP % 256, h.Compressed % 256, h.palEntries % 65536,
        h.Width % 65536, h.Height % 65536, h.RLEEntries % 4294967296⟩ := by
  have hMagic : read32 (headerBytes h ++ rest) 0 = h.Magic % 4294967296 := by
    show h.Magic / 16777216 % 256 * 16777216 + h.Magic / 65536 % 256 * 65536 +
        h.Magic / 256 % 256 * 256 + h.Magic % 256 = h.Magic % 4294967296
    omega
  have hBPP : (headerBytes h ++ rest).getD 4 0 = h.BPP % 256 := rfl
  have hCmp : (headerBytes h ++ rest).getD 5 0 = h.Compressed % 256 := rfl
  have hPal : read16 (headerBytes h ++ rest) 6 = h.palEntries % 65536 := by
    show h.palEntries / 256 % 256 * 256 + h.palEntries % 256 = h.palEntries % 65536
    omega
  have hWid : read16 (headerBytes h ++ rest) 8 = h.Width % 65536 := by
    show h.Width / 256 % 256 * 256 + h.Width % 256 = h.Width % 65536
    omega
  have hHei : read16 (headerBytes h ++ rest) 10 = h.Height % 65536 := by
    show h.Height / 256 % 256 * 256 + h.Height % 256 = h.Height % 65536
    omega
  have hRLE : read32 (headerBytes h ++ rest) 12 = h.RLEEntries % 4294967296 := by
    show h.RLEEntries / 16777216 % 256 * 16777216 + h.RLEEntries / 65536 % 256 * 65536 +
        h.RLEEntries / 256 % 256 * 256 + h.RLEEntries % 256 = h.RLEEntries % 4294967296
    omega
  unfold parseHeader
  rw [hMagic, hBPP, hCmp, hPal, hWid, hHei, hRLE]

theorem encode_output_getD_pal (h : KIFHeader) (pal : List Nat) (R : List Nat)
    (i k : Nat) (hi : i < pal.length) (hk : k < 4) :
    (headerBytes h ++ (pal.flatMap le32 ++ R)).getD (16 + i * 4 + k) 0 =
      (le32 (pal.getD i 0)).getD k 0 := by
  have h1 : 16 + i * 4 + k = (headerBytes h).length + (i * 4 + k) := by
    rw [headerBytes_length]
    omega
  rw [h1, getD_append_ge]
  rw [getD_append_lt _ _ _ _ (by rw [length_flatMap_le32]; omega)]
  exact palBytes_getD pal i k hi hk

theorem encode_output_getD_rle (h : KIFHeader) (pal : List Nat) (es : List (Nat × Nat))
    (i k : Nat) (hi : i < es.length) (hk : k < 2) :
    (headerBytes h ++ (pal.flatMap le32 ++ es.flatMap (fun e => [e.1, e.2]))).getD
        (16 + pal.length * 4 + i * 2 + k) 0 =
      [(es.getD i (0, 0)).1, (es.getD i (0, 0)).2].getD k 0 := by
  have h1 : 16 + pal.length * 4 + i * 2 + k =
      (headerBytes h).length + (pal.length * 4 + (i * 2 + k)) := by
    rw [headerBytes_length]
    omega
  rw [h1, getD_append_ge]
  have h2 : pal.length * 4 + (i * 2 + k) = (pal.flatMap le32).length + (i * 2 + k) := by
    rw [length_flatMap_le32]
    omega
  rw [h2, getD_append_ge]
  exact pairBytes_getD es i k hi hk

theorem readPalette_encode (h : KIFHeader) (pal : List Nat) (R : List Nat) (j : Nat)
    (hj : j < pal.length) :
    (readPalette (headerBytes h ++ (pal.flatMap le32 ++ R)) pal.length).getD j ⟨0, 0, 0, 0⟩ =
      ⟨pal.getD j 0 % 256, pal.getD j 0 / 256 % 256, pal.getD j 0 / 65536 % 256,
        pal.getD j 0 / 16777216 % 256⟩ := by
  unfold readPalette
  rw [List.getD_eq_getElem _ _ (by simpa using hj)]
  rw [List.getElem_map, List.getElem_range]
  unfold paletteAt
  have h0 := encode_output_getD_pal h pal R j 0 hj (by omega)
  have h1 := encode_output_getD_pal h pal R j 1 hj (by omega)
  have h2 := encode_output_getD_pal h pal R j 2 hj (by omega)
  have h3 := encode_output_getD_pal h pal R j 3 hj (by omega)
  simp only [Nat.add_zero] at h0
  simp only [Rgba.mk.injEq]
  refine ⟨?_, ?_, ?_, ?_⟩
  · rw [h0]; rfl
  · rw [h1]; rfl
  · rw [h2]; rfl
  · rw [h3]; rfl

theorem rleExpand_encode (h2 hP : KIFHeader) (pal : List Nat) (es : List (Nat × Nat))
    (bpp : Int) (hR : hP.RLEEntries = es.length) (hN : hP.palEntries = pal.length)
    (hidxlt : ∀ e ∈ es, e.1 < pal.length) :
    rleExpand (headerBytes h2 ++ (pal.flatMap le32 ++ es.flatMap (fun e => [e.1, e.2]))) hP
        (readPalette (headerBytes h2 ++ (pal.flatMap le32 ++ es.flatMap (fun e => [e.1, e.2])))
          hP.palEntries) bpp =
      (es.flatMap (fun e => List.replicate e.2 (pal.getD e.1 0))).flatMap
        (fun v => le24 v ++ (if bpp = 32 then [v / 16777216 % 256] else [])) := by
  unfold rleExpand
  rw [hR, hN]
  refine Eq.trans
    (flatMap_range_eq es ((0 : Nat), (0 : Nat)) _
      (fun e => (List.replicate e.2 (pal.getD e.1 0)).flatMap
        (fun v => le24 v ++ (if bpp = 32 then [v / 16777216 % 256] else []))) ?_)
    (by rw [← List.flatMap_assoc])
  intro i hi
  have hidx := encode_output_getD_rle h2 pal es i 0 hi (by omega)
  have hrun := encode_output_getD_rle h2 pal es i 1 hi (by omega)
  simp only [Nat.add_zero, List.getD_cons_zero, List.getD_cons_succ] at hidx hrun
  rw [hidx, hrun]
  have hmem : es.getD i (0, 0) ∈ es := by
    rw [List.getD_eq_getElem _ _ hi]
    exact List.getElem_mem hi
  rw [readPalette_encode h2 pal _ _ (hidxlt _ hmem)]
  dsimp only
  exact (flatMap_replicate (es.getD i (0, 0)).2 (pal.getD (es.getD i (0, 0)).1 0)
    (fun v => le24 v ++ (if bpp = 32 then [v / 16777216 % 256] else []))).symm

theorem rleEncode_expand (pal : List Nat) (hlen : pal.length ≤ 256) (l : List Nat)
    (hmem : ∀ c ∈ l, c ∈ pal) :
    (rleEncode pal l).flatMap (fun e => List.replicate e.2 (pal.getD e.1 0)) = l :=
  rleEncodeF_expand pal hlen l.length l (Nat.le_refl _) hmem

theorem roundtrip_core (px : List Nat) (hdr : KIFHeader)
    (hW : hdr.Width < 65536) (hH : hdr.Height < 65536)
    (hlen : px.length = hdr.Width * hdr.Height)
    (hcolors : px.dedup.length + 1 ≤ 256) (bpp : Int) (hbpp : bpp = 24 ∨ bpp = 32) :
    (kif_decode (some (kif_encode px hdr).output) false bpp).map (fun r => r.2) =
      some (px.flatMap (fun v =>
        le24 v ++ (if bpp = 32 then [v / 16777216 % 256] else []))) := by
  have htake : px.take (hdr.Width * hdr.Height) = px := by
    rw [← hlen]
    exact List.take_length px
  have hn256 : (generate_palette px).length ≤ 256 :=
    Nat.le_trans (generate_palette_length_le px) hcolors
  have hcomplete : ∀ c ∈ px, c ∈ generate_palette px :=
    generate_palette_complete px (by omega)
  have hmlen : (rleEncode (generate_palette px) px).length ≤ px.length :=
    rleEncodeF_length_le _ px.length px (Nat.le_refl _)
  have hWH : px.length < 4294967296 := by
    have h1 : hdr.Width * hdr.Height ≤ 65535 * 65535 :=
      Nat.mul_le_mul (by omega) (by omega)
    have h2 : (65535 * 65535 : Nat) < 4294967296 := by norm_num
    omega
  have hout : (kif_encode px hdr).output =
      headerBytes (kif_encode px hdr).header ++
        ((generate_palette px).flatMap le32 ++
          (rleEncode (generate_palette px) px).flatMap (fun e => [e.1, e.2])) := by
    simp only [kif_encode, htake]
  have hhead : (kif_encode px hdr).header =
      ⟨0x6B696631, 4, 0, (generate_palette px).length % 65536, hdr.Width, hdr.Height,
        (rleEncode (generate_palette px) px).length % 4294967296⟩ := by
    simp only [kif_encode, htake]
  have hparse : parseHeader ((kif_encode px hdr).output) =
      ⟨0x6B696631, 4, 0, (generate_palette px).length, hdr.Width, hdr.Height,
        (rleEncode (generate_palette px) px).length⟩ := by
    rw [hout, hhead, parseHeader_headerBytes]
    simp only [KIFHeader.mk.injEq]
    refine ⟨by norm_num, by norm_num, by norm_num, by omega,
      Nat.mod_eq_of_lt hW, Nat.mod_eq_of_lt hH, by omega⟩
  have hcond : ¬(bpp ≠ 24 ∧ bpp ≠ 32) := by
    rcases hbpp with h | h <;> simp [h]
  have hdec : kif_decode (some ((kif_encode px hdr).output)) false bpp =
      some (parseHeader ((kif_encode px hdr).output),
        rleExpand ((kif_encode px hdr).output) (parseHeader ((kif_encode px hdr).output))
          (readPalette ((kif_encode px hdr).output)
            (parseHeader ((kif_encode px hdr).output)).palEntries) bpp) := by
    simp only [kif_decode, if_neg hcond]
  have hidxlt : ∀ e ∈ rleEncode (generate_palette px) px, e.1 < (generate_palette px).length := by
    intro e he
    obtain ⟨c, hc, hec⟩ :=
      rleEncodeF_mem_color (generate_palette px) px.length px (Nat.le_refl _) e he
    rw [hec]
    exact (pidByte_of_mem c (generate_palette px) (hcomplete c hc) hn256).1
  have hexp := rleExpand_encode (kif_encode px hdr).header
    ⟨0x6B696631, 4, 0, (generate_palette px).length, hdr.Width, hdr.Height,
      (rleEncode (generate_palette px) px).length⟩
    (generate_palette px) (rleEncode (generate_palette px) px) bpp rfl rfl hidxlt
  rw [hdec, hparse, hout, Option.map_some']
  refine congrArg some ?_
  rw [hexp]
  dsimp only
  rw [rleEncode_expand (generate_palette px) hn256 px hcomplete]

theorem rleEncode_pos (pal : List Nat) (l : List Nat) (h : l ≠ []) :
    1 ≤ (rleEncode pal l).length := by
  cases l with
  | nil => exact absurd rfl h
  | cons x xs =>
    unfold rleEncode
    simp [rleEncodeF]

/-! ### Concrete instances used by witnesses and counterexamples -/

/-- A 3-wide, 1-high input header. -/
def hdrW3 : KIFHeader := ⟨0, 0, 0, 0, 3, 1, 0⟩

/-- A 4-wide, 1-high input header. -/
def hdrW4 : KIFHeader := ⟨0, 0, 0, 0, 4, 1, 0⟩

/-- A 2-wide, 1-high input header. -/
def hdrW2 : KIFHeader := ⟨0, 0, 0, 0, 2, 1, 0⟩

/-- A 1-by-1 input header. -/
def hdr11 : KIFHeader := ⟨0, 0, 0, 0, 1, 1, 0⟩

/-! ### Claim theorems -/

/-- C1: for every pixel buffer whose number of distinct 32-bit RGBA colours
plus the reserved transparent-black entry does not exceed 256, decoding the
result of `kif_encode` at output depth 32 returns the original pixel bytes
exactly, and at output depth 24 returns them with the alpha byte of each
pixel removed. -/
theorem kif_roundtrip (px : List Nat) (hdr : KIFHeader)
    (hW : hdr.Width < 65536) (hH : hdr.Height < 65536)
    (hlen : px.length = hdr.Width * hdr.Height)
    (hpx : ∀ v ∈ px, v < 4294967296)
    (hcolors : px.dedup.length + 1 ≤ 256) :
    (kif_decode (some (kif_encode px hdr).output) false 32).map (fun r => r.2) =
      some (px.flatMap le32) ∧
    (kif_decode (some (kif_encode px hdr).output) false 24).map (fun r => r.2) =
      some (px.flatMap le24) := by
  constructor
  · rw [roundtrip_core px hdr hW hH hlen hcolors 32 (Or.inr rfl)]
    refine congrArg some (congrArg _ ?_)
    funext v
    simp [le24, le32]
  · rw [roundtrip_core px hdr hW hH hlen hcolors 24 (Or.inl rfl)]
    refine congrArg some (congrArg _ ?_)
    funext v
    simp [le24]

/-- Witness for C1 at a concrete three-pixel image with a run and two distinct
colours. -/
theorem kif_roundtrip_witness :
    (([4280161290, 4280161290, 16909060] : List Nat).length = hdrW3.Width * hdrW3.Height) ∧
    (∀ v ∈ ([4280161290, 4280161290, 16909060] : List Nat), v < 4294967296) ∧
    (([4280161290, 4280161290, 16909060] : List Nat).dedup.length + 1 ≤ 256) ∧
    ((kif_decode (some (kif_encode [4280161290, 4280161290, 16909060] hdrW3).output) false 32).map
        (fun r => r.2) = some (([4280161290, 4280161290, 16909060] : List Nat).flatMap le32) ∧
      (kif_decode (some (kif_encode [4280161290, 4280161290, 16909060] hdrW3).output) false 24).map
        (fun r => r.2) = some (([4280161290, 4280161290, 16909060] : List Nat).flatMap le24)) :=
  ⟨by decide, by decide, by decide,
    kif_roundtrip [4280161290, 4280161290, 16909060] hdrW3 (by decide) (by decide)
      (by decide) (by decide) (by decide)⟩

/-- C2: the run lengths emitted by `kif_encode` sum to `Width*Height`, and
every run length lies between 1 and 255. -/
theorem kif_encode_run_lengths (px : List Nat) (hdr : KIFHeader)
    (hlen : px.length = hdr.Width * hdr.Height) :
    (((kif_encode px hdr).entries.map (fun e => e.2)).sum = hdr.Width * hdr.Height) ∧
    (∀ e ∈ (kif_encode px hdr).entries, 1 ≤ e.2 ∧ e.2 ≤ 255) := by
  have htake : px.take (hdr.Width * hdr.Height) = px := by
    rw [← hlen]
    exact List.take_length px
  have hent : (kif_encode px hdr).entries = rleEncode (generate_palette px) px := by
    simp only [kif_encode, htake]
  rw [hent]
  constructor
  · rw [show rleEncode (generate_palette px) px =
      rleEncodeF (generate_palette px) px.length px from rfl]
    rw [rleEncodeF_sum _ px.length px (Nat.le_refl _)]
    exact hlen
  · exact rleEncodeF_run_bounds _ px.length px (Nat.le_refl _)

/-- Witness for C2 at a concrete four-pixel single-colour image. -/
theorem kif_encode_run_lengths_witness :
    (([7, 7, 7, 7] : List Nat).length = hdrW4.Width * hdrW4.Height) ∧
    ((((kif_encode [7, 7, 7, 7] hdrW4).entries.map (fun e => e.2)).sum =
        hdrW4.Width * hdrW4.Height) ∧
      (∀ e ∈ (kif_encode [7, 7, 7, 7] hdrW4).entries, 1 ≤ e.2 ∧ e.2 ≤ 255)) :=
  ⟨by decide, kif_encode_run_lengths [7, 7, 7, 7] hdrW4 (by decide)⟩

/-- C3: the palette produced by `_generate_palette` always starts with the
reserved transparent-black entry, contains no duplicate colour, and extends
first-seen: processing one further pixel appends its colour exactly when the
colour is absent from the palette so far and fewer than 65536 entries
exist. -/
theorem generate_palette_spec :
    ∀ px : List Nat,
      (0 < (generate_palette px).length ∧ (generate_palette px).getD 0 1 = 0) ∧
      (generate_palette px).Nodup ∧
      (∀ c : Nat, generate_palette (px ++ [c]) =
        if c ∈ generate_palette px then generate_palette px
        else if (generate_palette px).length < 65536 then generate_palette px ++ [c]
        else generate_palette px) := by
  intro px
  refine ⟨⟨?_, generate_palette_getD_zero px⟩, generate_palette_nodup px, ?_⟩
  · have hne := generate_palette_ne_nil px
    cases h : generate_palette px with
    | nil => exact absurd h hne
    | cons a t => simp
  · intro c
    unfold generate_palette
    rw [List.foldl_append]
    rfl

/-- C8: a 1-by-1 image of the single colour (10,20,30,255) encodes to a
palette of two entries (the reserved black plus that colour), one RLE entry
(index 1, run 1), and decodes back to the single pixel unchanged. -/
theorem kif_single_pixel :
    (kif_encode [4280161290] hdr11).header.palEntries = 2 ∧
    (kif_encode [4280161290] hdr11).header.RLEEntries = 1 ∧
    generate_palette [4280161290] = [0, 4280161290] ∧
    (kif_encode [4280161290] hdr11).entries = [(1, 1)] ∧
    (kif_decode (some (kif_encode [4280161290] hdr11).output) false 32).map (fun r => r.2) =
      some [10, 20, 30, 255] := by
  decide

/-- C10: the `RLEEntries` count stored by `kif_encode` equals the number of
emitted entries, is at least 1 when `Width*Height` is positive, and never
exceeds `Width*Height`. -/
theorem kif_encode_entry_count (px : List Nat) (hdr : KIFHeader)
    (hW : hdr.Width < 65536) (hH : hdr.Height < 65536)
    (hlen : px.length = hdr.Width * hdr.Height) :
    (kif_encode px hdr).header.RLEEntries = (kif_encode px hdr).entries.length ∧
    (0 < hdr.Width * hdr.Height → 1 ≤ (kif_encode px hdr).header.RLEEntries) ∧
    (kif_encode px hdr).header.RLEEntries ≤ hdr.Width * hdr.Height := by
  have htake : px.take (hdr.Width * hdr.Height) = px := by
    rw [← hlen]
    exact List.take_length px
  have hent : (kif_encode px hdr).entries = rleEncode (generate_palette px) px := by
    simp only [kif_encode, htake]
  have hhR : (kif_encode px hdr).header.RLEEntries =
      (rleEncode (generate_palette px) px).length % 4294967296 := by
    simp only [kif_encode, htake]
  have hmlen : (rleEncode (generate_palette px) px).length ≤ px.length :=
    rleEncodeF_length_le _ px.length px (Nat.le_refl _)
  have hWH : px.length < 4294967296 := by
    have h1 : hdr.Width * hdr.Height ≤ 65535 * 65535 :=
      Nat.mul_le_mul (by omega) (by omega)
    have h2 : (65535 * 65535 : Nat) < 4294967296 := by norm_num
    omega
  have hmod : (rleEncode (generate_palette px) px).length % 4294967296 =
      (rleEncode (generate_palette px) px).length := Nat.mod_eq_of_lt (by omega)
  refine ⟨?_, ?_, ?_⟩
  · rw [hhR, hent, hmod]
  · intro hpos
    rw [hhR, hmod]
    refine rleEncode_pos _ px ?_
    intro hnil
    rw [hnil] at hlen
    simp only [List.length_nil] at hlen
    omega
  · rw [hhR, hmod]
    omega

/-- Witness for C10 at a concrete two-pixel image. -/
theorem kif_encode_entry_count_witness :
    (([1, 2] : List Nat).length = hdrW2.Width * hdrW2.Height) ∧
    ((kif_encode [1, 2] hdrW2).header.RLEEntries = (kif_encode [1, 2] hdrW2).entries.length ∧
      (0 < hdrW2.Width * hdrW2.Height → 1 ≤ (kif_encode [1, 2] hdrW2).header.RLEEntries) ∧
      (kif_encode [1, 2] hdrW2).header.RLEEntries ≤ hdrW2.Width * hdrW2.Height) :=
  ⟨by decide, kif_encode_entry_count [1, 2] hdrW2 (by decide) (by decide) (by decide)⟩

/-! ### Decoder size and magic-independence lemmas -/

theorem length_flatMap_eq_sum {α β} (l : List α) (f : α → List β) :
    (l.flatMap f).length = (l.map (fun a => (f a).length)).sum := by
  induction l with
  | nil => rfl
  | cons a t ih => simp [List.flatMap_cons, ih]

theorem length_flatMap_const {β} (k : Nat) (bs : List β) :
    ((List.range k).flatMap (fun _ => bs)).length = k * bs.length := by
  induction k with
  | zero => simp
  | succ m ih =>
    rw [List.range_succ, List.flatMap_append, List.length_append, ih]
    simp [Nat.succ_mul]

theorem sum_map_mul_right (l : List Nat) (f : Nat → Nat) (k : Nat) :
    (l.map (fun i => f i * k)).sum = (l.map f).sum * k := by
  induction l with
  | nil => simp
  | cons a t ih => simp [ih, Nat.add_mul]

theorem rleExpand_length (d : List Nat) (h : KIFHeader) (pal : List Rgba) (bpp : Int) :
    (rleExpand d h pal bpp).length =
      ((List.range h.RLEEntries).map (fun i =>
        d.getD (16 + h.palEntries * 4 + i * 2 + 1) 0)).sum * (if bpp = 32 then 4 else 3) := by
  unfold rleExpand
  rw [length_flatMap_eq_sum]
  have hfun : (fun i => ((List.range (d.getD (16 + h.palEntries * 4 + i * 2 + 1) 0)).flatMap
        (fun _ =>
          [(pal.getD (d.getD (16 + h.palEntries * 4 + i * 2) 0) ⟨0, 0, 0, 0⟩).r,
           (pal.getD (d.getD (16 + h.palEntries * 4 + i * 2) 0) ⟨0, 0, 0, 0⟩).g,
           (pal.getD (d.getD (16 + h.palEntries * 4 + i * 2) 0) ⟨0, 0, 0, 0⟩).b] ++
          (if bpp = 32 then
            [(pal.getD (d.getD (16 + h.palEntries * 4 + i * 2) 0) ⟨0, 0, 0, 0⟩).a]
          else []))).length) =
      (fun i => d.getD (16 + h.palEntries * 4 + i * 2 + 1) 0 * (if bpp = 32 then 4 else 3)) := by
    funext i
    rw [length_flatMap_const]
    by_cases hb : bpp = 32 <;> simp [hb]
  rw [hfun, sum_map_mul_right]

theorem getD_cons4 (x0 x1 x2 x3 : Nat) (rest : List Nat) (n : Nat) (d : Nat) :
    (x0 :: x1 :: x2 :: x3 :: rest).getD (4 + n) d = rest.getD n d :=
  getD_append_ge [x0, x1, x2, x3] rest n d

theorem headerSansMagic_parse_cons4 (x0 x1 x2 x3 : Nat) (rest : List Nat) :
    headerSansMagic (parseHeader (x0 :: x1 :: x2 :: x3 :: rest)) =
      (rest.getD 0 0, rest.getD 1 0, read16 rest 2, read16 rest 4, read16 rest 6,
        read32 rest 8) := rfl

theorem paletteAt_cons4 (x0 x1 x2 x3 : Nat) (rest : List Nat) (i : Nat) :
    paletteAt (x0 :: x1 :: x2 :: x3 :: rest) i =
      ⟨rest.getD (12 + i * 4) 0, rest.getD (12 + i * 4 + 1) 0,
        rest.getD (12 + i * 4 + 2) 0, rest.getD (12 + i * 4 + 3) 0⟩ := by
  unfold paletteAt
  rw [show 16 + i * 4 + 3 = 4 + (12 + i * 4 + 3) from by omega]
  rw [show 16 + i * 4 + 2 = 4 + (12 + i * 4 + 2) from by omega]
  rw [show 16 + i * 4 + 1 = 4 + (12 + i * 4 + 1) from by omega]
  rw [show 16 + i * 4 = 4 + (12 + i * 4) from by omega]
  simp only [getD_cons4]

/-- C5 (code defect): `kif_decode` performs no size validation at all.  For
any buffer shorter than the size its own header fields declare, decoding at
a valid depth still succeeds (the C code reads past the end of the input)
rather than failing with a `MalformedInput` error; indeed the function has
no error outcome other than the null-argument and depth checks. -/
theorem kif_decode_no_length_check (d : List Nat)
    (hshort : d.length <
      16 + 4 * (parseHeader d).palEntries + 2 * (parseHeader d).RLEEntries) :
    kif_decode (some d) false 32 ≠ none := by
  simp [kif_decode]

/-- Witness for C5 at a one-byte buffer, far shorter than the 16 bytes its
header parse declares. -/
theorem kif_decode_no_length_check_witness :
    (([0] : List Nat).length <
      16 + 4 * (parseHeader [0]).palEntries + 2 * (parseHeader [0]).RLEEntries) ∧
    kif_decode (some [0]) false 32 ≠ none :=
  ⟨by decide, kif_decode_no_length_check [0] (by decide)⟩

/-- A 16-byte buffer whose header declares Width = 1, Height = 1, no palette
entries and an empty RLE stream. -/
def bufEmptyStream : List Nat := [0, 0, 0, 0, 0, 0, 0, 0, 1, 0, 1, 0, 0, 0, 0, 0]

/-- Counterexample to C7 as stated: on `bufEmptyStream` (a well-formed call,
non-null arguments, depth 32) the decoder succeeds but returns 0 bytes, not
the `Width*Height * 4 = 4` bytes the claim promises, because the output is
driven by the RLE stream rather than by `Width*Height`. -/
theorem kif_decode_size_counterexample :
    (kif_decode (some bufEmptyStream) false 32).map
        (fun r => (r.1.Width, r.1.Height, r.2.length)) = some (1, 1, 0) ∧
    (1 * 1 * 4 : Nat) ≠ 0 := by
  decide

/-- C7 (amended): `kif_decode` fails exactly when the buffer is null, the
header out-pointer is null, or the requested depth is neither 24 nor 32 (in
particular depth 16 always fails); on every other call it succeeds, and the
returned buffer holds 3 (depth 24) or 4 (depth 32) bytes for each pixel the
RLE stream declares — `declaredRunSum` pixels in total, which coincides with
`Width*Height` only when the stream is consistent with the header. -/
theorem kif_decode_failure_spec :
    ∀ (D : Option (List Nat)) (hn : Bool) (bpp : Int) (d : List Nat),
      (kif_decode D hn bpp = none ↔ D = none ∨ hn = true ∨ (bpp ≠ 24 ∧ bpp ≠ 32)) ∧
      kif_decode (some d) false 16 = none ∧
      (kif_decode (some d) false 24).map (fun r => r.2.length) =
        some (declaredRunSum d * 3) ∧
      (kif_decode (some d) false 32).map (fun r => r.2.length) =
        some (declaredRunSum d * 4) := by
  intro D hn bpp d
  refine ⟨?_, ?_, ?_, ?_⟩
  · cases D with
    | none => simp [kif_decode]
    | some dd =>
      cases hn with
      | true => simp [kif_decode]
      | false =>
        by_cases hc : bpp ≠ 24 ∧ bpp ≠ 32
        · simp [kif_decode, hc]
        · simp [kif_decode, hc]
  · simp [kif_decode]
  · have h24 : kif_decode (some d) false 24 =
        some (parseHeader d,
          rleExpand d (parseHeader d) (readPalette d (parseHeader d).palEntries) 24) := by
      simp [kif_decode]
    rw [h24, Option.map_some']
    refine congrArg some ?_
    rw [rleExpand_length]
    simp [declaredRunSum]
  · have h32 : kif_decode (some d) false 32 =
        some (parseHeader d,
          rleExpand d (parseHeader d) (readPalette d (parseHeader d).palEntries) 32) := by
      simp [kif_decode]
    rw [h32, Option.map_some']
    refine congrArg some ?_
    rw [rleExpand_length]
    simp [declaredRunSum]

/-- C9: `kif_decode` never validates the magic field.  Two buffers that agree
except on bytes 0..3 decode to the same success-or-failure outcome, the same
pixel bytes, and headers that agree on every field except `Magic`. -/
theorem kif_decode_magic_independent :
    ∀ (a0 a1 a2 a3 b0 b1 b2 b3 : Nat) (rest : List Nat) (hn : Bool) (bpp : Int),
      (kif_decode (some (a0 :: a1 :: a2 :: a3 :: rest)) hn bpp = none ↔
        kif_decode (some (b0 :: b1 :: b2 :: b3 :: rest)) hn bpp = none) ∧
      (kif_decode (some (a0 :: a1 :: a2 :: a3 :: rest)) hn bpp).map (fun r => r.2) =
        (kif_decode (some (b0 :: b1 :: b2 :: b3 :: rest)) hn bpp).map (fun r => r.2) ∧
      (kif_decode (some (a0 :: a1 :: a2 :: a3 :: rest)) hn bpp).map
          (fun r => headerSansMagic r.1) =
        (kif_decode (some (b0 :: b1 :: b2 :: b3 :: rest)) hn bpp).map
          (fun r => headerSansMagic r.1) := by
  intro a0 a1 a2 a3 b0 b1 b2 b3 rest hn bpp
  have hN1 : (parseHeader (a0 :: a1 :: a2 :: a3 :: rest)).palEntries = read16 rest 2 := rfl
  have hN2 : (parseHeader (b0 :: b1 :: b2 :: b3 :: rest)).palEntries = read16 rest 2 := rfl
  have hR1 : (parseHeader (a0 :: a1 :: a2 :: a3 :: rest)).RLEEntries = read32 rest 8 := rfl
  have hR2 : (parseHeader (b0 :: b1 :: b2 :: b3 :: rest)).RLEEntries = read32 rest 8 := rfl
  have hpalAt : paletteAt (a0 :: a1 :: a2 :: a3 :: rest) =
      paletteAt (b0 :: b1 :: b2 :: b3 :: rest) := by
    funext i
    rw [paletteAt_cons4, paletteAt_cons4]
  have hexp : rleExpand (a0 :: a1 :: a2 :: a3 :: rest)
        (parseHeader (a0 :: a1 :: a2 :: a3 :: rest))
        (readPalette (a0 :: a1 :: a2 :: a3 :: rest)
          (parseHeader (a0 :: a1 :: a2 :: a3 :: rest)).palEntries) bpp =
      rleExpand (b0 :: b1 :: b2 :: b3 :: rest)
        (parseHeader (b0 :: b1 :: b2 :: b3 :: rest))
        (readPalette (b0 :: b1 :: b2 :: b3 :: rest)
          (parseHeader (b0 :: b1 :: b2 :: b3 :: rest)).palEntries) bpp := by
    unfold rleExpand readPalette
    rw [hN1, hN2, hR1, hR2, hpalAt]
    refine congrArg (List.flatMap (List.range (read32 rest 8))) (funext fun i => ?_)
    rw [show 16 + read16 rest 2 * 4 + i * 2 + 1 =
      4 + (12 + read16 rest 2 * 4 + i * 2 + 1) from by omega]
    rw [show 16 + read16 rest 2 * 4 + i * 2 =
      4 + (12 + read16 rest 2 * 4 + i * 2) from by omega]
    simp only [getD_cons4]
  cases hn with
  | true => exact ⟨by simp [kif_decode], by simp [kif_decode], by simp [kif_decode]⟩
  | false =>
    by_cases hc : bpp ≠ 24 ∧ bpp ≠ 32
    · exact ⟨by simp [kif_decode, hc], by simp [kif_decode, hc], by simp [kif_decode, hc]⟩
    · have h1 : kif_decode (some (a0 :: a1 :: a2 :: a3 :: rest)) false bpp =
          some (parseHeader (a0 :: a1 :: a2 :: a3 :: rest),
            rleExpand (a0 :: a1 :: a2 :: a3 :: rest)
              (parseHeader (a0 :: a1 :: a2 :: a3 :: rest))
              (readPalette (a0 :: a1 :: a2 :: a3 :: rest)
                (parseHeader (a0 :: a1 :: a2 :: a3 :: rest)).palEntries) bpp) := by
        simp [kif_decode, hc]
      have h2 : kif_decode (some (b0 :: b1 :: b2 :: b3 :: rest)) false bpp =
          some (parseHeader (b0 :: b1 :: b2 :: b3 :: rest),
            rleExpand (b0 :: b1 :: b2 :: b3 :: rest)
              (parseHeader (b0 :: b1 :: b2 :: b3 :: rest))
              (readPalette (b0 :: b1 :: b2 :: b3 :: rest)
                (parseHeader (b0 :: b1 :: b2 :: b3 :: rest)).palEntries) bpp) := by
        simp [kif_decode, hc]
      refine ⟨?_, ?_, ?_⟩
      · rw [h1, h2]
        simp
      · rw [h1, h2, Option.map_some', Option.map_some']
        exact congrArg some hexp
      · rw [h1, h2, Option.map_some', Option.map_some']
        refine congrArg some ?_
        rw [headerSansMagic_parse_cons4, headerSansMagic_parse_cons4]

/-! ### Palette capacity overflow: infrastructure -/

theorem range1_concat (n : Nat) : List.range' 1 (n + 1) = List.range' 1 n ++ [n + 1] := by
  have h : 1 + 1 * n = n + 1 := by omega
  rw [List.range'_concat, h]

theorem mem_range1_bounds (x n : Nat) (h : x ∈ List.range' 1 n) : 1 ≤ x ∧ x < n + 1 := by
  rw [List.mem_range'] at h
  obtain ⟨i, hi, hx⟩ := h
  omega

theorem chain_ne_range' : ∀ (n s : Nat), List.Chain' (fun a b : Nat => a ≠ b) (List.range' s n)
  | 0, _ => by simp
  | 1, s => by simp [List.range'_succ]
  | (n + 2), s => by
    rw [List.range'_succ, List.range'_succ]
    refine List.chain'_cons.mpr ⟨by omega, ?_⟩
    rw [← List.range'_succ]
    exact chain_ne_range' (n + 1) (s + 1)

/-- With at most 65535 fresh colours the palette takes them all, in order,
after the reserved entry. -/
theorem generate_palette_fresh_range (n : Nat) (hn : n ≤ 65535) :
    generate_palette (List.range' 1 n) = 0 :: List.range' 1 n := by
  unfold generate_palette
  have h := foldl_paletteStep_fresh (List.range' 1 n) [0]
    (List.nodup_range' 1 n)
    (fun c hc => by
      intro hmem
      have hb := mem_range1_bounds c n hc
      have hc0 : c = 0 := List.mem_singleton.mp hmem
      omega)
    (by simp [List.length_range']; omega)
  simpa using h

/-- The 65536-pixel gradient image: colours 1..65536, all distinct. -/
def pxOverflow : List Nat := List.range' 1 65536

/-- A 256-by-256 header for `pxOverflow`. -/
def hdrOverflow : KIFHeader := ⟨0, 0, 0, 0, 256, 256, 0⟩

/-- Processing `pxOverflow` fills the palette with the reserved entry plus
colours 1..65535; colour 65536 arrives when the palette already holds 65536
entries and is dropped. -/
theorem generate_palette_overflow :
    generate_palette pxOverflow = 0 :: List.range' 1 65535 := by
  have hsplit : pxOverflow = List.range' 1 65535 ++ [65536] := by
    show List.range' 1 65536 = List.range' 1 65535 ++ [65536]
    rw [show (65536 : Nat) = 65535 + 1 from rfl]
    exact range1_concat 65535
  have hbase : List.foldl paletteStep [0] (List.range' 1 65535) =
      0 :: List.range' 1 65535 := by
    have h := generate_palette_fresh_range 65535 (Nat.le_refl _)
    simpa [generate_palette] using h
  have hnm : (65536 : Nat) ∉ 0 :: List.range' 1 65535 := by
    intro hmem
    rcases List.mem_cons.mp hmem with h | h
    · omega
    · have := mem_range1_bounds _ _ h
      omega
  have hlen : (0 :: List.range' 1 65535).length = 65536 := by
    rw [List.length_cons, List.length_range']
  unfold generate_palette
  rw [hsplit, List.foldl_append, hbase, List.foldl_cons, List.foldl_nil]
  unfold paletteStep
  rw [if_neg hnm, if_neg (by rw [hlen]; omega)]

theorem overflow_colour_not_in_palette : (65536 : Nat) ∉ generate_palette pxOverflow := by
  rw [generate_palette_overflow]
  intro hmem
  rcases List.mem_cons.mp hmem with h | h
  · omega
  · have := mem_range1_bounds _ _ h
    omega

theorem pxOverflow_split : pxOverflow = List.range' 1 65535 ++ [65536] := by
  show List.range' 1 65536 = List.range' 1 65535 ++ [65536]
  rw [show (65536 : Nat) = 65535 + 1 from rfl]
  exact range1_concat 65535

theorem take16_append (h : KIFHeader) (t : List Nat) :
    (headerBytes h ++ t).take 16 = headerBytes h := by
  rw [(headerBytes_length h).symm]
  exact List.take_left _ _

theorem drop16_append (h : KIFHeader) (t : List Nat) :
    (headerBytes h ++ t).drop 16 = t := by
  rw [(headerBytes_length h).symm]
  exact List.drop_left _ _

/-- C4 (amended): every RLE entry `kif_encode` emits carries the palette
lookup byte of some pixel of the encoded image, and whenever that pixel's
colour is absent from the palette (the capacity-overflow drop case) the
emitted index byte is 255 — the `-1` lookup sentinel stored as an unsigned
byte — not 0. -/
theorem kif_encode_overflow_byte (px : List Nat) (hdr : KIFHeader) (e : Nat × Nat)
    (he : e ∈ (kif_encode px hdr).entries) :
    ∃ c, c ∈ px.take (hdr.Width * hdr.Height) ∧
      e.1 = pidByte c (generate_palette (px.take (hdr.Width * hdr.Height))) ∧
      (c ∉ generate_palette (px.take (hdr.Width * hdr.Height)) → e.1 = 255) := by
  have hent : (kif_encode px hdr).entries =
      rleEncode (generate_palette (px.take (hdr.Width * hdr.Height)))
        (px.take (hdr.Width * hdr.Height)) := by
    simp only [kif_encode]
  rw [hent] at he
  obtain ⟨c, hc, hec⟩ := rleEncodeF_mem_color _ _ _ (Nat.le_refl _) e he
  exact ⟨c, hc, hec, fun hnm => by rw [hec, pidByte_of_not_mem _ _ hnm]⟩

/-- Witness for the amended C4 at a concrete one-pixel image. -/
theorem kif_encode_overflow_byte_witness :
    (((1, 1) : Nat × Nat) ∈ (kif_encode [5] hdr11).entries) ∧
    (∃ c, c ∈ ([5] : List Nat).take (hdr11.Width * hdr11.Height) ∧
      ((1, 1) : Nat × Nat).1 =
        pidByte c (generate_palette (([5] : List Nat).take (hdr11.Width * hdr11.Height))) ∧
      (c ∉ generate_palette (([5] : List Nat).take (hdr11.Width * hdr11.Height)) →
        ((1, 1) : Nat × Nat).1 = 255)) :=
  ⟨by decide, kif_encode_overflow_byte [5] hdr11 (1, 1) (by decide)⟩

/-- Counterexample to C4 as stated: in the 65536-colour image `pxOverflow`
the colour 65536 is dropped from the palette, the encoder emits one entry
per pixel, and the entry for the dropped pixel — the last one — carries the
index byte 255, not 0. -/
theorem kif_encode_overflow_byte_counterexample :
    65536 ∈ pxOverflow ∧
    65536 ∉ generate_palette pxOverflow ∧
    (kif_encode pxOverflow hdrOverflow).entries =
      pxOverflow.map (fun c => (pidByte c (generate_palette pxOverflow), 1)) ∧
    (kif_encode pxOverflow hdrOverflow).entries.getLast? = some (255, 1) ∧
    (255 : Nat) ≠ 0 := by
  have hmem : (65536 : Nat) ∈ pxOverflow := by
    rw [pxOverflow_split]
    exact List.mem_append_right _ (by simp)
  have hWh : hdrOverflow.Width * hdrOverflow.Height = 65536 := by norm_num [hdrOverflow]
  have hl : pxOverflow.length = 65536 := by
    unfold pxOverflow
    rw [List.length_range']
  have htake : pxOverflow.take (hdrOverflow.Width * hdrOverflow.Height) = pxOverflow := by
    rw [hWh, ← hl]
    exact List.take_length pxOverflow
  have hchain : List.Chain' (fun a b : Nat => a ≠ b) pxOverflow := by
    unfold pxOverflow
    exact chain_ne_range' 65536 1
  have hentries : (kif_encode pxOverflow hdrOverflow).entries =
      pxOverflow.map (fun c => (pidByte c (generate_palette pxOverflow), 1)) := by
    have hent : (kif_encode pxOverflow hdrOverflow).entries =
        rleEncode (generate_palette pxOverflow) pxOverflow := by
      simp only [kif_encode, htake]
    rw [hent]
    exact rleEncodeF_chain _ _ _ (Nat.le_refl _) hchain
  have hnm : (65536 : Nat) ∉ 0 :: List.range' 1 65535 := by
    rw [← generate_palette_overflow]
    exact overflow_colour_not_in_palette
  refine ⟨hmem, overflow_colour_not_in_palette, hentries, ?_, by decide⟩
  rw [hentries, generate_palette_overflow, pxOverflow_split, List.map_append]
  simp only [List.map_cons, List.map_nil]
  rw [List.getLast?_concat]
  refine congrArg some ?_
  dsimp only
  rw [pidByte_of_not_mem 65536 (0 :: List.range' 1 65535) hnm]

/-- The 65535-pixel gradient image: colours 1..65535, all distinct, which
fill the palette to exactly its 65536-entry capacity. -/
def pxFull : List Nat := List.range' 1 65535

/-- A 65535-by-1 header for `pxFull`. -/
def hdrFull : KIFHeader := ⟨0, 0, 0, 0, 65535, 1, 0⟩

/-- The `palEntries` field written by the encoder, read off the definition
with the arguments kept symbolic. -/
theorem kif_encode_palEntries_eq (px : List Nat) (hdr : KIFHeader) :
    (kif_encode px hdr).header.palEntries =
      (generate_palette (px.take (hdr.Width * hdr.Height))).length % 65536 := rfl

/-- Counterexample to C6 as stated: encoding `pxFull` produces 65536 palette
colours, but the `uint16_t` header field `palEntries` wraps to 0, so it does
not equal the number of palette colours. -/
theorem kif_encode_header_counterexample :
    (generate_palette pxFull).length = 65536 ∧
    (kif_encode pxFull hdrFull).header.palEntries = 0 ∧
    (kif_encode pxFull hdrFull).header.palEntries ≠ (generate_palette pxFull).length := by
  have hpal : generate_palette pxFull = 0 :: List.range' 1 65535 := by
    show generate_palette (List.range' 1 65535) = 0 :: List.range' 1 65535
    exact generate_palette_fresh_range 65535 (Nat.le_refl _)
  have hlen : (generate_palette pxFull).length = 65536 := by
    rw [hpal, List.length_cons, List.length_range']
  have hl : pxFull.length = 65535 := by
    unfold pxFull
    rw [List.length_range']
  have hWh : hdrFull.Width * hdrFull.Height = 65535 := by norm_num [hdrFull]
  have htake : pxFull.take (hdrFull.Width * hdrFull.Height) = pxFull := by
    rw [hWh, ← hl]
    exact List.take_length pxFull
  have hfield := kif_encode_palEntries_eq pxFull hdrFull
  rw [htake, hlen] at hfield
  have hzero : (65536 : Nat) % 65536 = 0 := by decide
  rw [hzero] at hfield
  refine ⟨hlen, hfield, ?_⟩
  rw [hfield, hlen]
  decide

/-- C6 (amended): after any `kif_encode` call the embedded header has the
fixed magic, `BPP = 4`, `Compressed = 0`, `palEntries` equal to the palette
colour count reduced modulo 65536 (the `uint16_t` field wraps to 0 when the
count reaches exactly 65536), and `RLEEntries` equal to the number of
emitted pairs; the reported length is `16 + 4*(palette colour count) +
2*RLEEntries` — computed from the unwrapped count — and matches the actual
buffer, which is the header bytes followed immediately by the palette bytes
followed immediately by the RLE pairs. -/
theorem kif_encode_header_fields (px : List Nat) (hdr : KIFHeader)
    (hW : hdr.Width < 65536) (hH : hdr.Height < 65536) :
    (kif_encode px hdr).header.Magic = 0x6B696631 ∧
    (kif_encode px hdr).header.BPP = 4 ∧
    (kif_encode px hdr).header.Compressed = 0 ∧
    (kif_encode px hdr).header.palEntries =
      (generate_palette (px.take (hdr.Width * hdr.Height))).length % 65536 ∧
    (kif_encode px hdr).header.RLEEntries = (kif_encode px hdr).entries.length ∧
    (kif_encode px hdr).outputLength =
      16 + 4 * (generate_palette (px.take (hdr.Width * hdr.Height))).length +
        2 * (kif_encode px hdr).entries.length ∧
    (kif_encode px hdr).outputLength = (kif_encode px hdr).output.length ∧
    (kif_encode px hdr).output.take 16 = headerBytes (kif_encode px hdr).header ∧
    ((kif_encode px hdr).output.drop 16).take
        (4 * (generate_palette (px.take (hdr.Width * hdr.Height))).length) =
      (generate_palette (px.take (hdr.Width * hdr.Height))).flatMap le32 ∧
    (kif_encode px hdr).output.drop
        (16 + 4 * (generate_palette (px.take (hdr.Width * hdr.Height))).length) =
      (kif_encode px hdr).entries.flatMap (fun e => [e.1, e.2]) := by
  have hm32 : (rleEncode (generate_palette (px.take (hdr.Width * hdr.Height)))
      (px.take (hdr.Width * hdr.Height))).length < 4294967296 := by
    have h1 : (rleEncode (generate_palette (px.take (hdr.Width * hdr.Height)))
        (px.take (hdr.Width * hdr.Height))).length ≤
        (px.take (hdr.Width * hdr.Height)).length :=
      rleEncodeF_length_le _ _ _ (Nat.le_refl _)
    have h2 : (px.take (hdr.Width * hdr.Height)).length ≤ hdr.Width * hdr.Height := by
      rw [List.length_take]
      exact min_le_left _ _
    have h3 : hdr.Width * hdr.Height ≤ 65535 * 65535 :=
      Nat.mul_le_mul (by omega) (by omega)
    have h4 : (65535 * 65535 : Nat) < 4294967296 := by norm_num
    omega
  simp only [kif_encode]
  refine ⟨trivial, trivial, trivial, trivial, ?_, trivial, ?_, ?_, ?_, ?_⟩
  · exact Nat.mod_eq_of_lt hm32
  · rw [List.length_append, List.length_append, headerBytes_length,
      length_flatMap_le32, length_flatMap_pair]
    omega
  · exact take16_append _ _
  · rw [drop16_append, (length_flatMap_le32 _).symm]
    exact List.take_left _ _
  · rw [← List.append_assoc]
    rw [show 16 + 4 * (generate_palette (px.take (hdr.Width * hdr.Height))).length =
      (headerBytes ⟨0x6B696631, 4, 0,
        (generate_palette (px.take (hdr.Width * hdr.Height))).length % 65536,
        hdr.Width, hdr.Height,
        (rleEncode (generate_palette (px.take (hdr.Width * hdr.Height)))
          (px.take (hdr.Width * hdr.Height))).length % 4294967296⟩ ++
        (generate_palette (px.take (hdr.Width * hdr.Height))).flatMap le32).length from by
      rw [List.length_append, headerBytes_length, length_flatMap_le32]]
    exact List.drop_left _ _

/-- Witness for the amended C6 at a concrete one-pixel image. -/
theorem kif_encode_header_fields_witness :
    (kif_encode [9] hdr11).header.Magic = 0x6B696631 ∧
    (kif_encode [9] hdr11).header.BPP = 4 ∧
    (kif_encode [9] hdr11).header.Compressed = 0 ∧
    (kif_encode [9] hdr11).header.palEntries =
      (generate_palette (([9] : List Nat).take (hdr11.Width * hdr11.Height))).length % 65536 ∧
    (kif_encode [9] hdr11).header.RLEEntries = (kif_encode [9] hdr11).entries.length ∧
    (kif_encode [9] hdr11).outputLength =
      16 + 4 * (generate_palette (([9] : List Nat).take (hdr11.Width * hdr11.Height))).length +
        2 * (kif_encode [9] hdr11).entries.length ∧
    (kif_encode [9] hdr11).outputLength = (kif_encode [9] hdr11).output.length ∧
    (kif_encode [9] hdr11).output.take 16 = headerBytes (kif_encode [9] hdr11).header ∧
    ((kif_encode [9] hdr11).output.drop 16).take
        (4 * (generate_palette (([9] : List Nat).take (hdr11.Width * hdr11.Height))).length) =
      (generate_palette (([9] : List Nat).take (hdr11.Width * hdr11.Height))).flatMap le32 ∧
    (kif_encode [9] hdr11).output.drop
        (16 + 4 * (generate_palette (([9] : List Nat).take (hdr11.Width * hdr11.Height))).length) =
      (kif_encode [9] hdr11).entries.flatMap (fun e => [e.1, e.2]) :=
  kif_encode_header_fields [9] hdr11 (by decide) (by decide)
